import Mathlib

/-!
Verification of the schema post-processing pipeline in `xtask/src/schemagen.rs`.

The pipeline operates on in-memory JSON documents (`serde_json::Value`).  We
embed the JSON value type as an inductive `Value`, with objects as ordered
association lists (mirroring the key-addressed `serde_json::Map`: lookup and
insert are by key; insert replaces the value in place when the key is present
and appends otherwise; no transformation below depends on entry order).

Embedded functions, each translated from the Rust source:
  * `ensureNoAdditionalProperties`  —  `ensure_no_additional_properties`
  * `addSerdeAliases`               —  `add_serde_aliases`
  * `specializeLangConfig`, `specializeLangServer`, `specializeOverrides`
      —  the required-set rewriting block of `generate_languages_user_schema`
        (the "variant specializer" of the spec), acting on the document after
        derivation and before metadata/aliases/normalization.
-/

namespace Schemagen

/-- JSON values, as in `serde_json::Value`.  Numbers are opaque scalars here
(no transformation in the pipeline inspects or alters numeric contents). -/
inductive Value : Type where
  | null : Value
  | bool : Bool → Value
  | num : Int → Value
  | str : String → Value
  | arr : List Value → Value
  | obj : List (String × Value) → Value

/-- Key lookup in an object's field list (`serde_json::Map::get`). -/
def getVal : List (String × Value) → String → Option Value
  | [], _ => none
  | (k', v) :: rest, k => if k' = k then some v else getVal rest k

/-- `serde_json::Map::contains_key`. -/
def hasKey (kvs : List (String × Value)) (k : String) : Bool :=
  (getVal kvs k).isSome

/-- `serde_json::Map::insert`: replace in place when the key is present,
append otherwise. -/
def insertVal : List (String × Value) → String → Value → List (String × Value)
  | [], k, v => [(k, v)]
  | (k', v') :: rest, k, v =>
      if k' = k then (k, v) :: rest else (k', v') :: insertVal rest k v

/-- `Value::as_str`. -/
def asStr : Value → Option String
  | Value.str s => some s
  | _ => none

/-- The condition of `ensure_no_additional_properties`:
`map.get("type").and_then(as_str) == Some("object") || map.contains_key("properties")`. -/
def objectShaped (kvs : List (String × Value)) : Bool :=
  ((getVal kvs "type").bind asStr == some "object") || hasKey kvs "properties"

mutual

/-- `ensure_no_additional_properties` from `schemagen.rs`: recursively walk the
document; on every object node whose declared type is `"object"` or that
carries a `properties` key, insert `"additionalProperties": false` unless the
key is already present.  (The Rust code inserts before recursing; since the
inserted `false` is a scalar fixed by the recursion, inserting after recursing
over the original entries yields the same document.) -/
def ensureNoAdditionalProperties : Value → Value
  | Value.obj kvs =>
      if objectShaped kvs && !hasKey kvs "additionalProperties" then
        Value.obj
          (insertVal (enapFields kvs) "additionalProperties" (Value.bool false))
      else
        Value.obj (enapFields kvs)
  | Value.arr xs => Value.arr (enapItems xs)
  | Value.null => Value.null
  | Value.bool b => Value.bool b
  | Value.num n => Value.num n
  | Value.str s => Value.str s

/-- Recursion of `ensure_no_additional_properties` over an object's entries. -/
def enapFields : List (String × Value) → List (String × Value)
  | [] => []
  | (k, v) :: rest => (k, ensureNoAdditionalProperties v) :: enapFields rest

/-- Recursion of `ensure_no_additional_properties` over an array's items. -/
def enapItems : List Value → List Value
  | [] => []
  | v :: rest => ensureNoAdditionalProperties v :: enapItems rest

end

mutual

/-- Structural boolean equality of JSON values. -/
def beqValue : Value → Value → Bool
  | Value.null, Value.null => true
  | Value.bool a, Value.bool b => a == b
  | Value.num a, Value.num b => a == b
  | Value.str a, Value.str b => a == b
  | Value.arr xs, Value.arr ys => beqItems xs ys
  | Value.obj xs, Value.obj ys => beqFields xs ys
  | _, _ => false

/-- Structural boolean equality of object field lists. -/
def beqFields : List (String × Value) → List (String × Value) → Bool
  | [], [] => true
  | (k1, v1) :: r1, (k2, v2) :: r2 =>
      k1 == k2 && beqValue v1 v2 && beqFields r1 r2
  | _, _ => false

/-- Structural boolean equality of array item lists. -/
def beqItems : List Value → List Value → Bool
  | [], [] => true
  | x :: r1, y :: r2 => beqValue x y && beqItems r1 r2
  | _, _ => false

end

/-- Strong induction principle for `Value` (the type nests `List`, so we give
a member-wise principle proved by strong induction on `sizeOf`). -/
theorem Value.myInduction (P : Value → Prop)
    (hnull : P Value.null)
    (hbool : ∀ b, P (Value.bool b))
    (hnum : ∀ n, P (Value.num n))
    (hstr : ∀ s, P (Value.str s))
    (harr : ∀ xs, (∀ x ∈ xs, P x) → P (Value.arr xs))
    (hobj : ∀ kvs, (∀ p ∈ kvs, P p.2) → P (Value.obj kvs)) :
    ∀ v, P v := by
  have key : ∀ n v, sizeOf v ≤ n → P v := by
    intro n
    induction n with
    | zero =>
      intro v hv
      cases v <;> simp at hv
    | succ n ih =>
      intro v hv
      cases v with
      | null => exact hnull
      | bool b => exact hbool b
      | num m => exact hnum m
      | str s => exact hstr s
      | arr xs =>
        refine harr xs fun x hx => ih x ?_
        have hlt := List.sizeOf_lt_of_mem hx
        simp only [Value.arr.sizeOf_spec] at hv
        omega
      | obj kvs =>
        refine hobj kvs fun p hp => ih p.2 ?_
        have hlt := List.sizeOf_lt_of_mem hp
        obtain ⟨k, w⟩ := p
        simp only [Value.obj.sizeOf_spec, Prod.mk.sizeOf_spec] at hv hlt ⊢
        omega
  exact fun v => key (sizeOf v) v le_rfl

theorem beqFields_iff : ∀ (kvs ys : List (String × Value)),
    (∀ p ∈ kvs, ∀ b, (beqValue p.2 b = true) ↔ p.2 = b) →
    ((beqFields kvs ys = true) ↔ kvs = ys) := by
  intro kvs
  induction kvs with
  | nil => intro ys _; cases ys <;> simp [beqFields]
  | cons p rest ihl =>
    intro ys ih
    obtain ⟨k1, v1⟩ := p
    cases ys with
    | nil => simp [beqFields]
    | cons q rest2 =>
      obtain ⟨k2, v2⟩ := q
      have h1 : (beqValue v1 v2 = true) ↔ v1 = v2 :=
        ih (k1, v1) (by simp) v2
      have h2 := ihl rest2 fun p hp b => ih p (List.mem_cons_of_mem _ hp) b
      simp [beqFields, h1, h2, Bool.and_assoc, and_assoc]

theorem beqItems_iff : ∀ (xs ys : List Value),
    (∀ x ∈ xs, ∀ b, (beqValue x b = true) ↔ x = b) →
    ((beqItems xs ys = true) ↔ xs = ys) := by
  intro xs
  induction xs with
  | nil => intro ys _; cases ys <;> simp [beqItems]
  | cons x rest ihl =>
    intro ys ih
    cases ys with
    | nil => simp [beqItems]
    | cons y rest2 =>
      have h1 : (beqValue x y = true) ↔ x = y := ih x (by simp) y
      have h2 := ihl rest2 fun p hp b => ih p (List.mem_cons_of_mem _ hp) b
      simp [beqItems, h1, h2]

theorem beqValue_iff : ∀ a b : Value, (beqValue a b = true) ↔ a = b := by
  intro a
  induction a using Value.myInduction with
  | hnull => intro b; cases b <;> simp [beqValue]
  | hbool x => intro b; cases b <;> simp [beqValue]
  | hnum x => intro b; cases b <;> simp [beqValue]
  | hstr x => intro b; cases b <;> simp [beqValue]
  | harr xs ih =>
    intro b
    cases b <;> simp [beqValue]
    exact beqItems_iff xs _ ih
  | hobj kvs ih =>
    intro b
    cases b <;> simp [beqValue]
    exact beqFields_iff kvs _ ih

instance : DecidableEq Value := fun a b => decidable_of_iff _ (beqValue_iff a b)

/-- `add_serde_aliases` from `schemagen.rs`: if
`definitions.LanguageConfiguration.properties` contains `"comment-tokens"`,
insert a clone of it under the key `"comment-token"`; in every other case the
document is untouched. -/
def addSerdeAliases (schema : Value) : Value :=
  match schema with
  | Value.obj rootFields =>
      match getVal rootFields "definitions" with
      | some (Value.obj defs) =>
          match getVal defs "LanguageConfiguration" with
          | some (Value.obj lcFields) =>
              match getVal lcFields "properties" with
              | some (Value.obj props) =>
                  match getVal props "comment-tokens" with
                  | some s =>
                      Value.obj (insertVal rootFields "definitions"
                        (Value.obj (insertVal defs "LanguageConfiguration"
                          (Value.obj (insertVal lcFields "properties"
                            (Value.obj (insertVal props "comment-token" s)))))))
                  | none => Value.obj rootFields
              | _ => Value.obj rootFields
          | _ => Value.obj rootFields
      | _ => Value.obj rootFields
  | v => v

/-- First rule of the variant specializer in `generate_languages_user_schema`:
on the `LanguageConfiguration` definition, `required.retain(|field|
field.as_str() == Some("name"))`; skipped when the definition (as an object)
or its `required` array is absent. -/
def specializeLangConfig (defs : List (String × Value)) :
    List (String × Value) :=
  match getVal defs "LanguageConfiguration" with
  | some (Value.obj lcFields) =>
      match getVal lcFields "required" with
      | some (Value.arr req) =>
          insertVal defs "LanguageConfiguration"
            (Value.obj (insertVal lcFields "required"
              (Value.arr (req.filter fun field => asStr field == some "name"))))
      | _ => defs
  | _ => defs

/-- Second rule of the variant specializer: on the
`LanguageServerConfiguration` definition, `*required = json!([])` whenever a
`required` member is present; skipped when the definition (as an object) is
absent. -/
def specializeLangServer (defs : List (String × Value)) :
    List (String × Value) :=
  match getVal defs "LanguageServerConfiguration" with
  | some (Value.obj lsFields) =>
      match getVal lsFields "required" with
      | some _ =>
          insertVal defs "LanguageServerConfiguration"
            (Value.obj (insertVal lsFields "required" (Value.arr [])))
      | none => defs
  | _ => defs

/-- The required-set rewriting block of `generate_languages_user_schema`
(lines 106–135): both rules applied in source order to the `definitions`
table, when it exists as an object. -/
def specializeOverrides (schema : Value) : Value :=
  match schema with
  | Value.obj rootFields =>
      match getVal rootFields "definitions" with
      | some (Value.obj defs) =>
          Value.obj (insertVal rootFields "definitions"
            (Value.obj (specializeLangServer (specializeLangConfig defs))))
      | _ => Value.obj rootFields
  | v => v

/-- Follow a path of object keys down a document. -/
def lookupPath : Value → List String → Option Value
  | v, [] => some v
  | Value.obj kvs, k :: rest =>
      match getVal kvs k with
      | some w => lookupPath w rest
      | none => none
  | _, _ :: _ => none

/-- The fields of an object node (empty for non-objects). -/
def objFields : Value → List (String × Value)
  | Value.obj kvs => kvs
  | _ => []

/-- Per-node closure condition: an object-shaped node carries an
`additionalProperties` member. -/
def strictOk (kvs : List (String × Value)) : Bool :=
  !objectShaped kvs || hasKey kvs "additionalProperties"

/-- Per-node required-subset condition: every entry of the `required` array is
a string naming a key of the `properties` object.  A missing (or non-array)
`required` member imposes no constraint. -/
def requiredOk (kvs : List (String × Value)) : Bool :=
  match getVal kvs "required" with
  | some (Value.arr req) =>
      req.all fun r =>
        match r, getVal kvs "properties" with
        | Value.str s, some (Value.obj props) => hasKey props s
        | _, _ => false
  | _ => true

/-- Per-node invariant of the spec: object-shaped nodes satisfy
`required ⊆ keys(properties)`. -/
def invP (kvs : List (String × Value)) : Bool :=
  !objectShaped kvs || requiredOk kvs

mutual

/-- `allNodes P v`: the per-object-node condition `P` holds at every object
node of the tree `v`. -/
def allNodes (P : List (String × Value) → Bool) : Value → Bool
  | Value.obj kvs => P kvs && allNodesFields P kvs
  | Value.arr xs => allNodesItems P xs
  | _ => true

/-- `allNodes` over an object's entries. -/
def allNodesFields (P : List (String × Value) → Bool) :
    List (String × Value) → Bool
  | [] => true
  | p :: rest => allNodes P p.2 && allNodesFields P rest

/-- `allNodes` over an array's items. -/
def allNodesItems (P : List (String × Value) → Bool) : List Value → Bool
  | [] => true
  | v :: rest => allNodes P v && allNodesItems P rest

end

/-! ### Concrete example documents used in the claim theorems -/

/-- A `LanguageConfiguration` definition whose base `required` does not
contain `"name"`. -/
def c2lc : List (String × Value) :=
  [("type", Value.str "object"),
   ("properties", Value.obj [("name", Value.obj []), ("source", Value.obj [])]),
   ("required", Value.arr [Value.str "source"])]

/-- Definitions table holding `c2lc`. -/
def c2defs : List (String × Value) := [("LanguageConfiguration", Value.obj c2lc)]

/-- Root fields of the `c2doc` document. -/
def c2root : List (String × Value) := [("definitions", Value.obj c2defs)]

/-- Document whose `LanguageConfiguration` is present but whose base
`required` is `["source"]`. -/
def c2doc : Value := Value.obj c2root

/-- A node whose `additionalProperties` is pre-set to a non-boolean schema
with an un-normalized object-shaped descendant. -/
def c4fields : List (String × Value) :=
  [("additionalProperties", Value.obj [("properties", Value.obj [])])]

/-- An already-normalized map-like node: `additionalProperties` pre-set to a
non-boolean schema, every object-shaped node carrying the member. -/
def c4wit : List (String × Value) :=
  [("type", Value.str "object"),
   ("additionalProperties", Value.obj [("type", Value.str "string")])]

/-- Properties map holding the canonical `comment-tokens` field. -/
def c5props : List (String × Value) :=
  [("comment-tokens", Value.obj [("type", Value.str "string")])]

/-- A `LanguageConfiguration` definition holding `c5props`. -/
def c5lc : List (String × Value) := [("properties", Value.obj c5props)]

/-- Definitions table holding `c5lc`. -/
def c5defs : List (String × Value) := [("LanguageConfiguration", Value.obj c5lc)]

/-- Root fields of the alias-expansion example document. -/
def c5root : List (String × Value) := [("definitions", Value.obj c5defs)]

/-- Document with `LanguageConfiguration.required = ["name", "source"]` and
`LanguageServerConfiguration.required = ["command"]`. -/
def c6doc : Value := Value.obj [("definitions", Value.obj [
  ("LanguageConfiguration", Value.obj [
     ("type", Value.str "object"),
     ("properties", Value.obj [("name", Value.obj []), ("source", Value.obj [])]),
     ("required", Value.arr [Value.str "name", Value.str "source"])]),
  ("LanguageServerConfiguration", Value.obj [
     ("type", Value.str "object"),
     ("properties", Value.obj [("command", Value.obj [])]),
     ("required", Value.arr [Value.str "command"])])])]

/-- A node carrying an empty `properties` map and no declared type. -/
def c7node : Value := Value.obj [("properties", Value.obj [])]

/-- A definitions table containing neither `LanguageConfiguration` nor
`LanguageServerConfiguration`. -/
def c8defs : List (String × Value) :=
  [("Widget", Value.obj [("type", Value.str "object")])]

/-- Root fields of the missing-definition example document. -/
def c8root : List (String × Value) := [("definitions", Value.obj c8defs)]

/-- Document satisfying the required-subset invariant at every node. -/
def c9doc : Value := Value.obj [("definitions", Value.obj [
  ("LanguageConfiguration", Value.obj [
     ("type", Value.str "object"),
     ("properties", Value.obj [("name", Value.obj []), ("source", Value.obj [])]),
     ("required", Value.arr [Value.str "name", Value.str "source"])]),
  ("LanguageServerConfiguration", Value.obj [
     ("type", Value.str "object"),
     ("properties", Value.obj [("command", Value.obj [])]),
     ("required", Value.arr [Value.str "command"])])])]

/-- An object-shaped node without `additionalProperties`, used to exercise the
frame theorem of the normalizer. -/
def c10fields : List (String × Value) := [("type", Value.str "object")]

/-! ### Basic lemmas about the association-list map operations -/

theorem getVal_insertVal (l : List (String × Value)) (k0 k : String)
    (v : Value) :
    getVal (insertVal l k0 v) k = if k0 = k then some v else getVal l k := by
  induction l with
  | nil => by_cases h : k0 = k <;> simp [insertVal, getVal, h]
  | cons p rest ih =>
    obtain ⟨k', v'⟩ := p
    by_cases h1 : k' = k0
    · subst h1
      by_cases h2 : k' = k <;> simp [insertVal, getVal, h2]
    · by_cases h2 : k' = k
      · subst h2
        have h3 : k0 ≠ k' := fun h => h1 h.symm
        simp [insertVal, getVal, h1, h3]
      · simp [insertVal, getVal, h1, h2, ih]

theorem getVal_insertVal_self (l : List (String × Value)) (k : String)
    (v : Value) : getVal (insertVal l k v) k = some v := by
  simp [getVal_insertVal]

theorem getVal_insertVal_ne (l : List (String × Value)) (k0 k : String)
    (v : Value) (h : k0 ≠ k) : getVal (insertVal l k0 v) k = getVal l k := by
  simp [getVal_insertVal, h]

theorem insertVal_getVal_self (l : List (String × Value)) (k : String)
    (v : Value) (h : getVal l k = some v) : insertVal l k v = l := by
  induction l with
  | nil => simp [getVal] at h
  | cons p rest ih =>
    obtain ⟨k', v'⟩ := p
    by_cases h1 : k' = k
    · subst h1
      simp [getVal] at h
      simp [insertVal, h]
    · simp [getVal, h1] at h
      simp [insertVal, h1, ih h]

theorem getVal_map (l : List (String × Value)) (f : Value → Value)
    (k : String) :
    getVal (l.map fun p => (p.1, f p.2)) k = (getVal l k).map f := by
  induction l with
  | nil => simp [getVal]
  | cons p rest ih =>
    obtain ⟨k', v'⟩ := p
    by_cases h : k' = k <;> simp [getVal, h, ih]

/-! ### The normalizer's action on fields, items and lookups -/

theorem enapFields_eq (l : List (String × Value)) :
    enapFields l = l.map fun p => (p.1, ensureNoAdditionalProperties p.2) := by
  induction l with
  | nil => rfl
  | cons p rest ih => obtain ⟨k, v⟩ := p; simp [enapFields, ih]

theorem enapItems_eq (xs : List Value) :
    enapItems xs = xs.map ensureNoAdditionalProperties := by
  induction xs with
  | nil => rfl
  | cons x rest ih => simp [enapItems, ih]

theorem asStr_enap (v : Value) :
    asStr (ensureNoAdditionalProperties v) = asStr v := by
  cases v <;> simp only [ensureNoAdditionalProperties] <;> try rfl
  split <;> rfl

theorem getVal_enapFields (l : List (String × Value)) (k : String) :
    getVal (enapFields l) k =
      (getVal l k).map ensureNoAdditionalProperties := by
  rw [enapFields_eq, getVal_map]

theorem hasKey_enapFields (l : List (String × Value)) (k : String) :
    hasKey (enapFields l) k = hasKey l k := by
  simp [hasKey, getVal_enapFields]

theorem objectShaped_enapFields (l : List (String × Value)) :
    objectShaped (enapFields l) = objectShaped l := by
  unfold objectShaped
  rw [getVal_enapFields, hasKey_enapFields]
  congr 1
  cases h : getVal l "type" <;> simp [asStr_enap]

/-! ### Lemmas about `allNodes` -/

theorem allNodesFields_iff (P : List (String × Value) → Bool)
    (l : List (String × Value)) :
    allNodesFields P l = true ↔ ∀ p ∈ l, allNodes P p.2 = true := by
  induction l with
  | nil => simp [allNodesFields]
  | cons p rest ih => simp [allNodesFields, ih]

theorem allNodesItems_iff (P : List (String × Value) → Bool)
    (xs : List Value) :
    allNodesItems P xs = true ↔ ∀ x ∈ xs, allNodes P x = true := by
  induction xs with
  | nil => simp [allNodesItems]
  | cons x rest ih => simp [allNodesItems, ih]

theorem allNodes_obj_iff (P : List (String × Value) → Bool)
    (kvs : List (String × Value)) :
    allNodes P (Value.obj kvs) = true ↔
      P kvs = true ∧ ∀ p ∈ kvs, allNodes P p.2 = true := by
  simp [allNodes, allNodesFields_iff]

theorem allNodesFields_insertVal (P : List (String × Value) → Bool)
    (l : List (String × Value)) (k : String) (v : Value)
    (hl : allNodesFields P l = true) (hv : allNodes P v = true) :
    allNodesFields P (insertVal l k v) = true := by
  induction l with
  | nil => simp [insertVal, allNodesFields, hv]
  | cons p rest ih =>
    obtain ⟨k', v'⟩ := p
    simp [allNodesFields] at hl
    by_cases h1 : k' = k
    · simp [insertVal, h1, allNodesFields, hv, hl.2]
    · simp [insertVal, h1, allNodesFields, hl.1, ih hl.2]

theorem allNodes_of_getVal (P : List (String × Value) → Bool)
    (l : List (String × Value)) (k : String) (v : Value)
    (hl : allNodesFields P l = true) (h : getVal l k = some v) :
    allNodes P v = true := by
  induction l with
  | nil => simp [getVal] at h
  | cons p rest ih =>
    obtain ⟨k', v'⟩ := p
    simp [allNodesFields] at hl
    by_cases h1 : k' = k
    · simp [getVal, h1] at h
      exact h ▸ hl.1
    · simp [getVal, h1] at h
      exact ih hl.2 h

theorem list_map_id_of {α : Type} (l : List α) (f : α → α)
    (h : ∀ a ∈ l, f a = a) : l.map f = l := by
  induction l with
  | nil => rfl
  | cons a rest ih =>
    simp only [List.map_cons, h a (by simp)]
    rw [ih fun x hx => h x (by simp [hx])]

theorem fields_map_id_of (l : List (String × Value))
    (h : ∀ p ∈ l, ensureNoAdditionalProperties p.2 = p.2) : enapFields l = l := by
  rw [enapFields_eq]
  refine list_map_id_of l _ fun p hp => ?_
  rw [h p hp]

theorem allNodesFields_enapFields_of (P : List (String × Value) → Bool)
    (kvs : List (String × Value))
    (ih : ∀ p ∈ kvs, allNodes P (ensureNoAdditionalProperties p.2) = true) :
    allNodesFields P (enapFields kvs) = true := by
  rw [allNodesFields_iff, enapFields_eq]
  intro p hp
  obtain ⟨q, hq, rfl⟩ := List.mem_map.mp hp
  exact ih q hq

/-- After the normalizer runs, every object-shaped node in the tree carries an
`additionalProperties` member. -/
theorem allNodes_strictOk_enap :
    ∀ v, allNodes strictOk (ensureNoAdditionalProperties v) = true := by
  intro v
  induction v using Value.myInduction with
  | hnull => rfl
  | hbool b => rfl
  | hnum n => rfl
  | hstr s => rfl
  | harr xs ih =>
    simp only [ensureNoAdditionalProperties, allNodes, enapItems_eq,
      allNodesItems_iff]
    intro x hx
    obtain ⟨y, hy, rfl⟩ := List.mem_map.mp hx
    exact ih y hy
  | hobj kvs ih =>
    simp only [ensureNoAdditionalProperties]
    split
    · rw [allNodes_obj_iff]
      constructor
      · simp [strictOk, hasKey, getVal_insertVal_self]
      · rw [← allNodesFields_iff]
        exact allNodesFields_insertVal _ _ _ _
          (allNodesFields_enapFields_of _ _ fun p hp => ih p hp) rfl
    · next hcond =>
      rw [allNodes_obj_iff]
      refine ⟨?_, ?_⟩
      · unfold strictOk
        rw [objectShaped_enapFields, hasKey_enapFields]
        revert hcond
        cases objectShaped kvs <;>
          cases hasKey kvs "additionalProperties" <;> simp
      · rw [← allNodesFields_iff]
        exact allNodesFields_enapFields_of _ _ fun p hp => ih p hp

/-- On a document in which every object-shaped node already carries an
`additionalProperties` member, the normalizer is the identity. -/
theorem enap_id_of_normalized :
    ∀ v, allNodes strictOk v = true → ensureNoAdditionalProperties v = v := by
  intro v
  induction v using Value.myInduction with
  | hnull => intro _; rfl
  | hbool b => intro _; rfl
  | hnum n => intro _; rfl
  | hstr s => intro _; rfl
  | harr xs ih =>
    intro h
    simp only [allNodes, allNodesItems_iff] at h
    simp only [ensureNoAdditionalProperties, enapItems_eq]
    rw [list_map_id_of xs _ fun x hx => ih x hx (h x hx)]
  | hobj kvs ih =>
    intro h
    rw [allNodes_obj_iff] at h
    obtain ⟨hstrict, hrec⟩ := h
    have hfire :
        (objectShaped kvs && !hasKey kvs "additionalProperties") = false := by
      unfold strictOk at hstrict
      revert hstrict
      cases objectShaped kvs <;>
        cases hasKey kvs "additionalProperties" <;> simp
    simp only [ensureNoAdditionalProperties, hfire, Bool.false_eq_true,
      if_false]
    rw [fields_map_id_of kvs fun p hp => ih p hp (hrec p hp)]

/-! ### Preservation of the required-subset invariant by the specializer -/

theorem objectShaped_congr (l1 l2 : List (String × Value))
    (ht : getVal l1 "type" = getVal l2 "type")
    (hp : getVal l1 "properties" = getVal l2 "properties") :
    objectShaped l1 = objectShaped l2 := by
  unfold objectShaped hasKey
  rw [ht, hp]

theorem requiredOk_congr (l1 l2 : List (String × Value))
    (hp : getVal l1 "properties" = getVal l2 "properties")
    (hr : getVal l1 "required" = getVal l2 "required") :
    requiredOk l1 = requiredOk l2 := by
  unfold requiredOk
  rw [hr]
  cases getVal l2 "required" with
  | none => rfl
  | some v => cases v <;> simp [hp]

theorem invP_insertVal_other (l : List (String × Value)) (k : String)
    (v : Value) (hk1 : k ≠ "type") (hk2 : k ≠ "properties")
    (hk3 : k ≠ "required") : invP (insertVal l k v) = invP l := by
  unfold invP
  rw [objectShaped_congr _ l (getVal_insertVal_ne _ _ _ _ hk1)
      (getVal_insertVal_ne _ _ _ _ hk2),
    requiredOk_congr _ l (getVal_insertVal_ne _ _ _ _ hk2)
      (getVal_insertVal_ne _ _ _ _ hk3)]

theorem invP_required_filtered (lcFields : List (String × Value))
    (req req' : List Value)
    (hreq : getVal lcFields "required" = some (Value.arr req))
    (hsub : ∀ r ∈ req', r ∈ req) (hinv : invP lcFields = true) :
    invP (insertVal lcFields "required" (Value.arr req')) = true := by
  unfold invP at hinv ⊢
  have hshape :
      objectShaped (insertVal lcFields "required" (Value.arr req')) =
        objectShaped lcFields :=
    objectShaped_congr _ _ (getVal_insertVal_ne _ _ _ _ (by decide))
      (getVal_insertVal_ne _ _ _ _ (by decide))
  rw [hshape]
  cases hs : objectShaped lcFields with
  | false => simp
  | true =>
    rw [hs] at hinv
    simp only [Bool.not_true, Bool.false_or] at hinv ⊢
    have hprops :
        getVal (insertVal lcFields "required" (Value.arr req')) "properties" =
          getVal lcFields "properties" :=
      getVal_insertVal_ne _ _ _ _ (by decide)
    unfold requiredOk at hinv ⊢
    rw [getVal_insertVal_self]
    rw [hreq] at hinv
    rw [List.all_eq_true] at hinv ⊢
    intro r hr
    have hmem := hinv r (hsub r hr)
    simpa [hprops] using hmem

theorem invP_required_empty (lsFields : List (String × Value)) :
    invP (insertVal lsFields "required" (Value.arr [])) = true := by
  unfold invP requiredOk
  rw [getVal_insertVal_self]
  simp

theorem specializeLangConfig_allNodes (defs : List (String × Value))
    (h : allNodes invP (Value.obj defs) = true) :
    allNodes invP (Value.obj (specializeLangConfig defs)) = true := by
  rw [allNodes_obj_iff] at h
  obtain ⟨hroot, hmem⟩ := h
  have hfields : allNodesFields invP defs = true :=
    (allNodesFields_iff _ _).mpr hmem
  unfold specializeLangConfig
  split
  all_goals try exact (allNodes_obj_iff _ _).mpr ⟨hroot, hmem⟩
  split
  all_goals try exact (allNodes_obj_iff _ _).mpr ⟨hroot, hmem⟩
  rename_i x1 lcFields hlc x2 req hreq
  have hlcAll := allNodes_of_getVal invP defs _ _ hfields hlc
  rw [allNodes_obj_iff] at hlcAll
  obtain ⟨hinv_lc, hmem_lc⟩ := hlcAll
  have hmem_lc' : allNodesFields invP lcFields = true :=
    (allNodesFields_iff _ _).mpr hmem_lc
  have hreqAll := allNodes_of_getVal invP lcFields _ _ hmem_lc' hreq
  have hreqAll' : ∀ x ∈ req, allNodes invP x = true := by
    simpa [allNodes, allNodesItems_iff] using hreqAll
  rw [allNodes_obj_iff]
  constructor
  · rw [invP_insertVal_other defs "LanguageConfiguration" _ (by decide)
      (by decide) (by decide)]
    exact hroot
  · rw [← allNodesFields_iff]
    apply allNodesFields_insertVal _ _ _ _ hfields
    rw [allNodes_obj_iff]
    constructor
    · exact invP_required_filtered lcFields req _ hreq
        (fun r hr => List.mem_of_mem_filter hr) hinv_lc
    · rw [← allNodesFields_iff]
      apply allNodesFields_insertVal _ _ _ _ hmem_lc'
      simp only [allNodes, allNodesItems_iff]
      intro x hx
      exact hreqAll' x (List.mem_of_mem_filter hx)

theorem specializeLangServer_allNodes (defs : List (String × Value))
    (h : allNodes invP (Value.obj defs) = true) :
    allNodes invP (Value.obj (specializeLangServer defs)) = true := by
  rw [allNodes_obj_iff] at h
  obtain ⟨hroot, hmem⟩ := h
  have hfields : allNodesFields invP defs = true :=
    (allNodesFields_iff _ _).mpr hmem
  unfold specializeLangServer
  split
  all_goals try exact (allNodes_obj_iff _ _).mpr ⟨hroot, hmem⟩
  split
  all_goals try exact (allNodes_obj_iff _ _).mpr ⟨hroot, hmem⟩
  rename_i x1 lsFields hls x2 rv hreq
  have hlsAll := allNodes_of_getVal invP defs _ _ hfields hls
  rw [allNodes_obj_iff] at hlsAll
  obtain ⟨hinv_ls, hmem_ls⟩ := hlsAll
  have hmem_ls' : allNodesFields invP lsFields = true :=
    (allNodesFields_iff _ _).mpr hmem_ls
  rw [allNodes_obj_iff]
  constructor
  · rw [invP_insertVal_other defs "LanguageServerConfiguration" _ (by decide)
      (by decide) (by decide)]
    exact hroot
  · rw [← allNodesFields_iff]
    apply allNodesFields_insertVal _ _ _ _ hfields
    rw [allNodes_obj_iff]
    constructor
    · exact invP_required_empty lsFields
    · rw [← allNodesFields_iff]
      exact allNodesFields_insertVal _ _ _ _ hmem_ls' rfl

theorem specializeOverrides_allNodes (d : Value)
    (h : allNodes invP d = true) :
    allNodes invP (specializeOverrides d) = true := by
  unfold specializeOverrides
  split
  all_goals try exact h
  split
  all_goals try exact h
  rename_i sch rootFields x0 defs hdefs
  rw [allNodes_obj_iff] at h
  obtain ⟨hroot, hmem⟩ := h
  have hfields : allNodesFields invP rootFields = true :=
    (allNodesFields_iff _ _).mpr hmem
  have hdefsAll := allNodes_of_getVal invP rootFields _ _ hfields hdefs
  have h1 := specializeLangConfig_allNodes defs hdefsAll
  have h2 := specializeLangServer_allNodes _ h1
  rw [allNodes_obj_iff]
  refine ⟨?_, ?_⟩
  · rw [invP_insertVal_other rootFields "definitions" _ (by decide)
      (by decide) (by decide)]
    exact hroot
  · rw [← allNodesFields_iff]
    exact allNodesFields_insertVal _ _ _ _ hfields h2

/-! ### Further helpers for the claim theorems -/

theorem hasKey_eq_false_iff (l : List (String × Value)) (k : String) :
    hasKey l k = false ↔ getVal l k = none := by
  unfold hasKey
  cases getVal l k <;> simp

theorem objFields_enap_obj (kvs : List (String × Value)) :
    objFields (ensureNoAdditionalProperties (Value.obj kvs)) =
      if objectShaped kvs && !hasKey kvs "additionalProperties" then
        insertVal (enapFields kvs) "additionalProperties" (Value.bool false)
      else enapFields kvs := by
  simp only [ensureNoAdditionalProperties]
  cases h : objectShaped kvs && !hasKey kvs "additionalProperties" <;>
    simp [h, objFields]

theorem getVal_specializeLangServer_other (l : List (String × Value))
    (k : String) (hk : k ≠ "LanguageServerConfiguration") :
    getVal (specializeLangServer l) k = getVal l k := by
  unfold specializeLangServer
  split
  all_goals try rfl
  split
  all_goals try rfl
  exact getVal_insertVal_ne _ _ _ _ (Ne.symm hk)

/-! ### Claim theorems -/

/-- C1: after the strictness normalizer runs on a document, every object-shaped
node (a node whose declared type is "object" or that carries a `properties`
member) anywhere in the resulting tree — the root, the definitions table and
all descendants — carries an `additionalProperties` member. -/
theorem claim1_closure_invariant (d : Value) :
    allNodes strictOk (ensureNoAdditionalProperties d) = true :=
  allNodes_strictOk_enap d

/-- C3: the strictness normalizer is idempotent: normalizing twice yields the
same document as normalizing once, since after the first pass every
object-shaped node carries `additionalProperties` and the insertion rule never
fires again. -/
theorem claim3_normalize_idempotent (d : Value) :
    ensureNoAdditionalProperties (ensureNoAdditionalProperties d) =
      ensureNoAdditionalProperties d :=
  enap_id_of_normalized _ (allNodes_strictOk_enap d)

/-- C6: on a document whose `LanguageConfiguration` has
`required = ["name", "source"]` and whose `LanguageServerConfiguration` has
`required = ["command"]`, the variant specializer leaves `required = ["name"]`
for the former and `required = []` for the latter. -/
theorem claim6_override_relaxation :
    lookupPath (specializeOverrides c6doc)
        ["definitions", "LanguageConfiguration", "required"] =
      some (Value.arr [Value.str "name"]) ∧
    lookupPath (specializeOverrides c6doc)
        ["definitions", "LanguageServerConfiguration", "required"] =
      some (Value.arr []) := by
  constructor <;> decide

/-- C7 counterexample: the node `{"properties": {}}` has an empty `properties`
map and no declared type "object", yet the normalizer does give it
`additionalProperties: false` — the code tests `contains_key("properties")`,
not non-emptiness, so the claim's "non-empty properties map" reading of
object-shaped is refuted. -/
theorem claim7_counterexample :
    getVal (objFields c7node) "type" = none ∧
    getVal (objFields c7node) "properties" = some (Value.obj []) ∧
    getVal (objFields (ensureNoAdditionalProperties c7node))
        "additionalProperties" = some (Value.bool false) := by
  refine ⟨rfl, rfl, by decide⟩

/-- C7 (amended): the normalizer's insertion fires exactly on nodes whose
declared type is "object" or that carry a `properties` member (present, even
when it is an empty map): the result carries `additionalProperties` iff the
node is object-shaped in this sense or already carried the member; when the
rule fires the value set is `false`, and on a non-object-shaped node the
member is exactly the (recursively normalized) one the node already had. -/
theorem claim7_amended_fire_condition (kvs : List (String × Value)) :
    (hasKey (objFields (ensureNoAdditionalProperties (Value.obj kvs)))
        "additionalProperties" =
      (objectShaped kvs || hasKey kvs "additionalProperties")) ∧
    (objectShaped kvs = true → hasKey kvs "additionalProperties" = false →
      getVal (objFields (ensureNoAdditionalProperties (Value.obj kvs)))
          "additionalProperties" = some (Value.bool false)) ∧
    (objectShaped kvs = false →
      getVal (objFields (ensureNoAdditionalProperties (Value.obj kvs)))
          "additionalProperties" =
        (getVal kvs "additionalProperties").map ensureNoAdditionalProperties)
    := by
  rw [objFields_enap_obj]
  refine ⟨?_, ?_, ?_⟩
  · have hins : hasKey (insertVal (enapFields kvs) "additionalProperties"
        (Value.bool false)) "additionalProperties" = true := by
      simp [hasKey, getVal_insertVal_self]
    cases hs : objectShaped kvs <;>
      cases hk : hasKey kvs "additionalProperties" <;>
      simp [hs, hk, hasKey_enapFields, hins]
  · intro hs hk
    simp [hs, hk, getVal_insertVal_self]
  · intro hs
    simp [hs, getVal_enapFields]

/-- Witness for the amended C7, exercising both the firing branch (a node of
declared type "object" without `additionalProperties`) and the
non-object-shaped branch. -/
theorem claim7_amended_witness :
    (objectShaped [("type", Value.str "object")] = true ∧
     hasKey [("type", Value.str "object")] "additionalProperties" = false ∧
     getVal (objFields (ensureNoAdditionalProperties
         (Value.obj [("type", Value.str "object")]))) "additionalProperties" =
       some (Value.bool false)) ∧
    (objectShaped [("title", Value.str "x")] = false ∧
     getVal (objFields (ensureNoAdditionalProperties
         (Value.obj [("title", Value.str "x")]))) "additionalProperties" =
       (getVal [("title", Value.str "x")] "additionalProperties").map
         ensureNoAdditionalProperties) :=
  ⟨⟨by decide, by decide,
    (claim7_amended_fire_condition [("type", Value.str "object")]).2.1
      (by decide) (by decide)⟩,
   ⟨by decide,
    (claim7_amended_fire_condition [("title", Value.str "x")]).2.2
      (by decide)⟩⟩

/-- C2 counterexample: `c2doc` contains the `LanguageConfiguration`
definition, but with base `required = ["source"]` the specializer leaves
`required = []`, not the singleton `["name"]` — the code intersects with
`{"name"}` via `retain` and never forces `"name"` in. -/
theorem claim2_counterexample :
    (lookupPath c2doc ["definitions", "LanguageConfiguration"]).isSome =
      true ∧
    lookupPath (specializeOverrides c2doc)
        ["definitions", "LanguageConfiguration", "required"] =
      some (Value.arr []) ∧
    Value.arr [] ≠ Value.arr [Value.str "name"] := by
  refine ⟨by decide, by decide, by decide⟩

/-- C2 (amended): after the variant specializer, the `LanguageConfiguration`
definition's `required` array equals its base `required` array filtered to the
entries equal to the string "name" (an intersection with `{"name"}`; when
"name" was not in the base required set the result is empty, not the forced
singleton). -/
theorem claim2_amended_required_filter
    (rootFields defs lcFields : List (String × Value)) (req : List Value)
    (h1 : getVal rootFields "definitions" = some (Value.obj defs))
    (h2 : getVal defs "LanguageConfiguration" = some (Value.obj lcFields))
    (h3 : getVal lcFields "required" = some (Value.arr req)) :
    lookupPath (specializeOverrides (Value.obj rootFields))
        ["definitions", "LanguageConfiguration", "required"] =
      some (Value.arr (req.filter fun field => asStr field == some "name"))
    := by
  have hLC : getVal (specializeLangServer (specializeLangConfig defs))
      "LanguageConfiguration" =
      some (Value.obj (insertVal lcFields "required"
        (Value.arr (req.filter fun field => asStr field == some "name")))) := by
    rw [getVal_specializeLangServer_other _ _ (by decide)]
    unfold specializeLangConfig
    simp only [h2, h3]
    exact getVal_insertVal_self _ _ _
  unfold specializeOverrides
  simp only [h1, lookupPath, getVal_insertVal_self, hLC]

/-- Witness for the amended C2: on `c2doc` (base `required = ["source"]`) the
specialized `required` is the filtered — here empty — array. -/
theorem claim2_amended_witness :
    getVal c2root "definitions" = some (Value.obj c2defs) ∧
    getVal c2defs "LanguageConfiguration" = some (Value.obj c2lc) ∧
    getVal c2lc "required" = some (Value.arr [Value.str "source"]) ∧
    lookupPath (specializeOverrides (Value.obj c2root))
        ["definitions", "LanguageConfiguration", "required"] =
      some (Value.arr ([Value.str "source"].filter fun field =>
        asStr field == some "name")) :=
  ⟨by decide, by decide, by decide,
   claim2_amended_required_filter c2root c2defs c2lc [Value.str "source"]
     (by decide) (by decide) (by decide)⟩

/-- C4 counterexample: `c4fields` carries `additionalProperties` pre-set to
the non-boolean schema `{"properties": {}}`, yet the normalizer does not leave
the node byte-identical: it recurses into the pre-set value (which is
object-shaped and lacks `additionalProperties`) and inserts the member there.
-/
theorem claim4_counterexample :
    getVal c4fields "additionalProperties" =
      some (Value.obj [("properties", Value.obj [])]) ∧
    ensureNoAdditionalProperties (Value.obj c4fields) ≠ Value.obj c4fields ∧
    lookupPath (Value.obj c4fields)
        ["additionalProperties", "additionalProperties"] = none ∧
    lookupPath (ensureNoAdditionalProperties (Value.obj c4fields))
        ["additionalProperties", "additionalProperties"] =
      some (Value.bool false) :=
  ⟨by decide, by decide, by decide, by decide⟩

/-- C4 (amended): the normalizer never overwrites a pre-set
`additionalProperties` member — afterwards the member holds exactly the
(recursively normalized) pre-set value, never `false` in its place — and a
node is left byte-identical whenever every object-shaped node of its subtree
(itself included) already carries `additionalProperties`. -/
theorem claim4_amended_no_overwrite (kvs : List (String × Value)) :
    (hasKey kvs "additionalProperties" = true →
      getVal (objFields (ensureNoAdditionalProperties (Value.obj kvs)))
          "additionalProperties" =
        (getVal kvs "additionalProperties").map ensureNoAdditionalProperties) ∧
    (allNodes strictOk (Value.obj kvs) = true →
      ensureNoAdditionalProperties (Value.obj kvs) = Value.obj kvs) := by
  constructor
  · intro h
    rw [objFields_enap_obj]
    simp [h, getVal_enapFields]
  · exact enap_id_of_normalized _

/-- Witness for the amended C4: the map-like node `c4wit` (type "object",
`additionalProperties` a string schema) keeps its member and is left
byte-identical. -/
theorem claim4_amended_witness :
    hasKey c4wit "additionalProperties" = true ∧
    allNodes strictOk (Value.obj c4wit) = true ∧
    getVal (objFields (ensureNoAdditionalProperties (Value.obj c4wit)))
        "additionalProperties" =
      (getVal c4wit "additionalProperties").map ensureNoAdditionalProperties ∧
    ensureNoAdditionalProperties (Value.obj c4wit) = Value.obj c4wit :=
  ⟨by decide, by decide,
   (claim4_amended_no_overwrite c4wit).1 (by decide),
   (claim4_amended_no_overwrite c4wit).2 (by decide)⟩

/-- C5: when `definitions.LanguageConfiguration.properties` holds the
canonical field `comment-tokens` with schema `s`, the alias expander adds the
alias field `comment-token` with the same schema and keeps the canonical
field; when the chain down to the canonical field is absent, the document is
returned unchanged. -/
theorem claim5_alias_expansion
    (rootFields defs lcFields props : List (String × Value)) (s d : Value) :
    (getVal rootFields "definitions" = some (Value.obj defs) →
      getVal defs "LanguageConfiguration" = some (Value.obj lcFields) →
      getVal lcFields "properties" = some (Value.obj props) →
      getVal props "comment-tokens" = some s →
      lookupPath (addSerdeAliases (Value.obj rootFields))
          ["definitions", "LanguageConfiguration", "properties",
            "comment-token"] = some s ∧
      lookupPath (addSerdeAliases (Value.obj rootFields))
          ["definitions", "LanguageConfiguration", "properties",
            "comment-tokens"] = some s) ∧
    (lookupPath d ["definitions", "LanguageConfiguration", "properties",
        "comment-tokens"] = none →
      addSerdeAliases d = d) := by
  constructor
  · intro h1 h2 h3 h4
    have hne := getVal_insertVal_ne props "comment-token" "comment-tokens" s
      (by decide)
    unfold addSerdeAliases
    simp only [h1, h2, h3, h4]
    constructor
    · simp only [lookupPath, getVal_insertVal_self]
    · simp only [lookupPath, getVal_insertVal_self, hne, h4]
  · intro h0
    unfold addSerdeAliases
    split
    all_goals try rfl
    split
    all_goals try rfl
    split
    all_goals try rfl
    split
    all_goals try rfl
    split
    all_goals try rfl
    exfalso
    simp_all [lookupPath]

/-- Witness for C5: both the expansion branch (on the `c5root` document) and
the no-op branch (on a document without the canonical field). -/
theorem claim5_witness :
    (getVal c5root "definitions" = some (Value.obj c5defs) ∧
     getVal c5defs "LanguageConfiguration" = some (Value.obj c5lc) ∧
     getVal c5lc "properties" = some (Value.obj c5props) ∧
     getVal c5props "comment-tokens" =
       some (Value.obj [("type", Value.str "string")]) ∧
     lookupPath (addSerdeAliases (Value.obj c5root))
         ["definitions", "LanguageConfiguration", "properties",
           "comment-token"] =
       some (Value.obj [("type", Value.str "string")]) ∧
     lookupPath (addSerdeAliases (Value.obj c5root))
         ["definitions", "LanguageConfiguration", "properties",
           "comment-tokens"] =
       some (Value.obj [("type", Value.str "string")])) ∧
    (lookupPath (Value.obj [("title", Value.str "x")])
        ["definitions", "LanguageConfiguration", "properties",
          "comment-tokens"] = none ∧
     addSerdeAliases (Value.obj [("title", Value.str "x")]) =
       Value.obj [("title", Value.str "x")]) :=
  ⟨⟨by decide, by decide, by decide, by decide,
    ((claim5_alias_expansion c5root c5defs c5lc c5props
        (Value.obj [("type", Value.str "string")]) Value.null).1
      (by decide) (by decide) (by decide) (by decide)).1,
    ((claim5_alias_expansion c5root c5defs c5lc c5props
        (Value.obj [("type", Value.str "string")]) Value.null).1
      (by decide) (by decide) (by decide) (by decide)).2⟩,
   ⟨by decide,
    (claim5_alias_expansion [] [] [] [] Value.null
        (Value.obj [("title", Value.str "x")])).2 (by decide)⟩⟩

/-- C8: when a definition named by the variant specializer is absent from the
definitions table, the corresponding rule is skipped without error and makes
no change: each rule returns the table unchanged, and with both definitions
absent the whole specializer returns the document unchanged. -/
theorem claim8_missing_definition_skip
    (defs rootFields : List (String × Value)) :
    (hasKey defs "LanguageConfiguration" = false →
      specializeLangConfig defs = defs) ∧
    (hasKey defs "LanguageServerConfiguration" = false →
      specializeLangServer defs = defs) ∧
    (getVal rootFields "definitions" = some (Value.obj defs) →
      hasKey defs "LanguageConfiguration" = false →
      hasKey defs "LanguageServerConfiguration" = false →
      specializeOverrides (Value.obj rootFields) = Value.obj rootFields) := by
  have p1 : hasKey defs "LanguageConfiguration" = false →
      specializeLangConfig defs = defs := by
    intro h
    rw [hasKey_eq_false_iff] at h
    unfold specializeLangConfig
    simp only [h]
  have p2 : hasKey defs "LanguageServerConfiguration" = false →
      specializeLangServer defs = defs := by
    intro h
    rw [hasKey_eq_false_iff] at h
    unfold specializeLangServer
    simp only [h]
  refine ⟨p1, p2, ?_⟩
  intro hdefs h1 h2
  unfold specializeOverrides
  simp only [hdefs, p1 h1, p2 h2]
  rw [insertVal_getVal_self _ _ _ hdefs]

/-- Witness for C8: a definitions table holding only `Widget` is left
unchanged by both rules and by the whole specializer. -/
theorem claim8_witness :
    hasKey c8defs "LanguageConfiguration" = false ∧
    hasKey c8defs "LanguageServerConfiguration" = false ∧
    getVal c8root "definitions" = some (Value.obj c8defs) ∧
    specializeLangConfig c8defs = c8defs ∧
    specializeLangServer c8defs = c8defs ∧
    specializeOverrides (Value.obj c8root) = Value.obj c8root :=
  ⟨by decide, by decide, by decide,
   (claim8_missing_definition_skip c8defs c8root).1 (by decide),
   (claim8_missing_definition_skip c8defs c8root).2.1 (by decide),
   (claim8_missing_definition_skip c8defs c8root).2.2 (by decide) (by decide)
     (by decide)⟩

/-- C9: the variant specializer preserves the required-subset invariant: if
every object-shaped node of the document satisfies
`required ⊆ keys(properties)` before it runs, every object-shaped node still
does afterwards. -/
theorem claim9_required_subset_preserved (d : Value)
    (h : allNodes invP d = true) :
    allNodes invP (specializeOverrides d) = true :=
  specializeOverrides_allNodes d h

/-- Witness for C9 on a concrete well-formed document. -/
theorem claim9_witness :
    allNodes invP c9doc = true ∧
    allNodes invP (specializeOverrides c9doc) = true :=
  ⟨by decide, claim9_required_subset_preserved c9doc (by decide)⟩

/-- C10: the normalizer only adds members: every key-value pair of an object
node survives (with its value recursively normalized), the only key it can
introduce is `additionalProperties` with value `false`, array lengths are
unchanged and scalars are returned untouched. -/
theorem claim10_frame (kvs : List (String × Value)) (xs : List Value)
    (b : Bool) (n : Int) (s : String) :
    (∀ k w, getVal kvs k = some w →
      getVal (objFields (ensureNoAdditionalProperties (Value.obj kvs))) k =
        some (ensureNoAdditionalProperties w)) ∧
    (∀ k, hasKey (objFields (ensureNoAdditionalProperties (Value.obj kvs))) k
        = true →
      hasKey kvs k = true ∨
        (k = "additionalProperties" ∧
          getVal (objFields (ensureNoAdditionalProperties (Value.obj kvs))) k
            = some (Value.bool false))) ∧
    ensureNoAdditionalProperties (Value.arr xs) =
      Value.arr (xs.map ensureNoAdditionalProperties) ∧
    (xs.map ensureNoAdditionalProperties).length = xs.length ∧
    ensureNoAdditionalProperties (Value.bool b) = Value.bool b ∧
    ensureNoAdditionalProperties (Value.num n) = Value.num n ∧
    ensureNoAdditionalProperties (Value.str s) = Value.str s ∧
    ensureNoAdditionalProperties Value.null = Value.null := by
  refine ⟨?_, ?_, ?_, ?_, rfl, rfl, rfl, rfl⟩
  · intro k w hw
    rw [objFields_enap_obj]
    split
    · rename_i hc
      have hkey : hasKey kvs "additionalProperties" = false := by
        revert hc
        cases hasKey kvs "additionalProperties" <;> simp
      have hne : ("additionalProperties" : String) ≠ k := by
        intro e
        rw [hasKey_eq_false_iff] at hkey
        rw [← e] at hw
        rw [hkey] at hw
        cases hw
      rw [getVal_insertVal_ne _ _ _ _ hne, getVal_enapFields, hw]
      rfl
    · rw [getVal_enapFields, hw]
      rfl
  · intro k hk
    rw [objFields_enap_obj] at hk ⊢
    split at hk
    · rename_i hc
      by_cases hek : ("additionalProperties" : String) = k
      · subst hek
        right
        refine ⟨rfl, ?_⟩
        rw [if_pos hc]
        exact getVal_insertVal_self _ _ _
      · left
        unfold hasKey at hk
        rw [getVal_insertVal_ne _ _ _ _ hek] at hk
        rw [← hasKey_enapFields]
        exact hk
    · rw [hasKey_enapFields] at hk
      left
      exact hk
  · simp only [ensureNoAdditionalProperties, enapItems_eq]
  · simp

/-- Witness for C10 on the object-shaped node `c10fields`: the pre-existing
`type` member survives normalization, and the one introduced key is
`additionalProperties` with value `false`. -/
theorem claim10_witness :
    getVal c10fields "type" = some (Value.str "object") ∧
    getVal (objFields (ensureNoAdditionalProperties (Value.obj c10fields)))
        "type" = some (ensureNoAdditionalProperties (Value.str "object")) ∧
    hasKey (objFields (ensureNoAdditionalProperties (Value.obj c10fields)))
        "additionalProperties" = true ∧
    (hasKey c10fields "additionalProperties" = true ∨
      (("additionalProperties" : String) = "additionalProperties" ∧
        getVal (objFields (ensureNoAdditionalProperties
            (Value.obj c10fields))) "additionalProperties" =
          some (Value.bool false))) :=
  ⟨by decide,
   (claim10_frame c10fields [] true 0 "x").1 "type" (Value.str "object")
     (by decide),
   by decide,
   (claim10_frame c10fields [] true 0 "x").2.1 "additionalProperties"
     (by decide)⟩

end Schemagen
